import Mathlib

/-
Verification of the cache library in `src/include/LruCache.h` against its
natural-language specification.

Shallow embedding conventions:
  * The C++ `LruCache` keeps a `nodeMap_` (key to node) and a doubly linked
    list with dummy head and tail sentinels.  The map and the list always
    hold exactly the same entries (every mutation updates both), so the
    state is embedded as a single association list `order` listing the
    entries from the node adjacent to `dummyHead_` (least recent) to the
    node adjacent to `dummyTail_` (most recent).  `nodeMap_` is the
    association `lookupKey order`, and `nodeMap_.size()` is `order.length`.
  * C++ `int` parameters are embedded as `Int`; `std::size_t` as `Nat`.
  * `Value value{}` (value initialization) is embedded as `default` of an
    `Inhabited` instance.
  * Fallible lookups return `Option`; a C++ bool-plus-out-parameter
    signature becomes a pair of an `Option` result and the mutated state.
  * The LFU engine (`LfuCache.h`) is included only by the test file; it is
    not part of `src/`, so it is modelled from the specification text (see
    the definitions marked "Modelled from the spec").
-/

section AssocDefs

variable {A B : Type} [DecidableEq A]

/-- Association-list lookup: the value stored for key `a`, if present.
Embeds `std::unordered_map::find`. -/
def lookupKey : List (A × B) → A → Option B
  | [], _ => none
  | (x, y) :: rest, a => if x = a then some y else lookupKey rest a

/-- Remove the entry for key `a` (first occurrence; keys are unique in every
reachable cache state).  Embeds `std::unordered_map::erase` together with the
matching list unlink. -/
def eraseKey : List (A × B) → A → List (A × B)
  | [], _ => []
  | (x, y) :: rest, a => if x = a then rest else (x, y) :: eraseKey rest a

/-- Set key `a` to value `b`, inserting at the end when absent.  Embeds
`map[a] = b`. -/
def setAssoc : List (A × B) → A → B → List (A × B)
  | [], a, b => [(a, b)]
  | (x, y) :: rest, a, b => if x = a then (a, b) :: rest else (x, y) :: setAssoc rest a b

/-- Remove the first occurrence of an element from a list (unlink of one
node from a bucket list). -/
def eraseElem : List A → A → List A
  | [], _ => []
  | x :: rest, a => if x = a then rest else x :: eraseElem rest a

end AssocDefs

section LruDefs

variable {K V : Type} [DecidableEq K]

/-- State of `LruCache<Key, Value>`: the fixed `capacity_` and the recency
list `order` (head = node adjacent to `dummyHead_`, i.e. least recently used;
last = node adjacent to `dummyTail_`, i.e. most recently used).  `nodeMap_`
holds exactly the entries of `order`. -/
structure LruCache (K V : Type) where
  capacity : Nat
  order : List (K × V)
  deriving DecidableEq

/-- Embeds the constructor `LruCache(int capacity)`:
`capacity_ = capacity > 0 ? size_t(capacity) : 0`, empty list. -/
def LruCache.make (capacity : Int) : LruCache K V :=
  ⟨if 0 < capacity then capacity.toNat else 0, []⟩

/-- Embeds `LruCache::put`.  `capacity_ == 0` returns at once.  An existing
key has its value overwritten and is moved to the most recent position
(`updateExistingNode`: `setValue` then `moveToMostRecent`, i.e. unlink and
re-insert before `dummyTail_`).  A new key goes through `addNewNode`: when
`nodeMap_.size() >= capacity_` first `evictLeastRecent` (drop the node after
`dummyHead_`; no-op on an empty list), then insert before `dummyTail_`. -/
def LruCache.put (s : LruCache K V) (key : K) (v : V) : LruCache K V :=
  if s.capacity = 0 then s
  else
    match lookupKey s.order key with
    | some _ => ⟨s.capacity, eraseKey s.order key ++ [(key, v)]⟩
    | none =>
      let l := if s.capacity ≤ s.order.length then s.order.tail else s.order
      ⟨s.capacity, l ++ [(key, v)]⟩

/-- Embeds `bool LruCache::get(const Key&, Value&)`: on a hit the node is
moved to the most recent position and its value is written out (`true`);
on a miss nothing changes (`false`).  The C++ out-parameter and boolean
become an `Option V`; the mutated receiver is the second component. -/
def LruCache.get (s : LruCache K V) (key : K) : Option V × LruCache K V :=
  match lookupKey s.order key with
  | some v => (some v, ⟨s.capacity, eraseKey s.order key ++ [(key, v)]⟩)
  | none => (none, s)

/-- Embeds the convenience `Value LruCache::get(const Key&)`:
`Value value{}; get(key, value); return value;`. -/
def LruCache.getValue [Inhabited V] (s : LruCache K V) (key : K) :
    V × LruCache K V :=
  match LruCache.get s key with
  | (some v, s1) => (v, s1)
  | (none, s1) => (default, s1)

/-- Embeds `LruCache::remove`: unlink and erase the node when present. -/
def LruCache.remove (s : LruCache K V) (key : K) : LruCache K V :=
  match lookupKey s.order key with
  | some _ => ⟨s.capacity, eraseKey s.order key⟩
  | none => s

/-- A public operation on an `LruCache`: `put(key, value)` or
`get(key, value&)`. -/
inductive LruOp (K V : Type) where
  | put (key : K) (v : V)
  | get (key : K)
  deriving DecidableEq

/-- Run one operation, keeping the state (the boolean or out-value of `get`
is discarded). -/
def applyLruOp (s : LruCache K V) : LruOp K V → LruCache K V
  | LruOp.put key v => LruCache.put s key v
  | LruOp.get key => (LruCache.get s key).2

/-- Run a sequence of operations left to right. -/
def runLruOps (s : LruCache K V) (ops : List (LruOp K V)) : LruCache K V :=
  ops.foldl applyLruOp s

/-- Run a sequence of `put` operations given as key-value pairs. -/
def runPuts (s : LruCache K V) (ps : List (K × V)) : LruCache K V :=
  ps.foldl (fun t p => LruCache.put t p.1 p.2) s

end LruDefs

section KHashDefs

variable {K V : Type} [DecidableEq K]

/-- State of `KHashLruCaches<Key, Value>`: total `capacity_`, `sliceNum_`,
the vector `lruSliceCaches_` of slice caches, and the hash function.
`hashFn` embeds `std::hash<Key>`, an external standard-library function; for
integer keys the common library implementations hash a value to itself. -/
structure KHashLruCaches (K V : Type) where
  capacity : Nat
  sliceNum : Nat
  caches : List (LruCache K V)
  hashFn : K → Nat

/-- Embeds the constructor `KHashLruCaches(size_t capacity, int sliceNum)`:
`sliceNum_ = sliceNum > 0 ? sliceNum : std::thread::hardware_concurrency()`
(the hardware parallelism is the parameter `hw`), per-slice size
`std::ceil(capacity / double(sliceNum_))` (exact ceiling division), and
`sliceNum_` slice caches of that size. -/
def KHashLruCaches.create (capacity : Nat) (sliceNum : Int) (hw : Nat)
    (hashFn : K → Nat) : KHashLruCaches K V :=
  let n := if 0 < sliceNum then sliceNum.toNat else hw
  let sliceSize := (capacity + n - 1) / n
  ⟨capacity, n, List.replicate n (LruCache.make (sliceSize : Int)), hashFn⟩

/-- Embeds `KHashLruCaches::put`: route to the slice at
`Hash(key) % sliceNum_` and put there. -/
def KHashLruCaches.put (s : KHashLruCaches K V) (key : K) (v : V) :
    KHashLruCaches K V :=
  let i := s.hashFn key % s.sliceNum
  ⟨s.capacity, s.sliceNum,
    s.caches.set i (LruCache.put (s.caches.getD i (LruCache.make 0)) key v),
    s.hashFn⟩

/-- Embeds `bool KHashLruCaches::get(Key, Value&)`: route to the slice at
`Hash(key) % sliceNum_` and get there. -/
def KHashLruCaches.get (s : KHashLruCaches K V) (key : K) :
    Option V × KHashLruCaches K V :=
  let i := s.hashFn key % s.sliceNum
  let r := LruCache.get (s.caches.getD i (LruCache.make 0)) key
  (r.1, ⟨s.capacity, s.sliceNum, s.caches.set i r.2, s.hashFn⟩)

/-- Run a sequence of sharded `put` operations. -/
def runKPuts (s : KHashLruCaches K V) (ps : List (K × V)) :
    KHashLruCaches K V :=
  ps.foldl (fun t p => KHashLruCaches.put t p.1 p.2) s

end KHashDefs

section LruKDefs

variable {K V : Type} [DecidableEq K]

/-- Conversion of a C++ `int` to `std::size_t` (64 bits), as performed by the
comparison `historyCount >= k_` (`historyCount` is `size_t`, `k_` is `int`,
so `k_` undergoes the usual arithmetic conversion to `size_t`). -/
def intToSizeT (i : Int) : Nat := (i % (2 ^ 64)).toNat

/-- State of `LruKCache<Key, Value>`: the admission threshold `k_`, the main
cache (the inherited `LruCache<Key, Value>` base), the access-history cache
`historyList_` (an `LruCache<Key, size_t>` whose values are access counts),
and `historyValueMap_` (values of keys not yet admitted). -/
structure LruKCache (K V : Type) where
  k : Int
  main : LruCache K V
  history : LruCache K Nat
  historyValue : List (K × V)

/-- Embeds the constructor `LruKCache(int capacity, int historyCapacity, int k)`. -/
def LruKCache.make (capacity historyCapacity k : Int) : LruKCache K V :=
  ⟨k, LruCache.make capacity, LruCache.make historyCapacity, []⟩

/-- Embeds `Value LruKCache::get(const Key&)`: probe the main cache, then
increment the recorded history count; on a main hit return the value; on a
miss, when the count reaches `k_` and a history value is recorded, move that
value into the main cache and return it, otherwise return the
value-initialized default. -/
def LruKCache.get [Inhabited V] (s : LruKCache K V) (key : K) :
    V × LruKCache K V :=
  let m := LruCache.get s.main key
  let h := LruCache.getValue s.history key
  let historyCount := h.1 + 1
  let hist2 := LruCache.put h.2 key historyCount
  match m.1 with
  | some v => (v, ⟨s.k, m.2, hist2, s.historyValue⟩)
  | none =>
    if intToSizeT s.k ≤ historyCount then
      match lookupKey s.historyValue key with
      | some stored =>
          (stored, ⟨s.k, LruCache.put m.2 key stored,
            LruCache.remove hist2 key, eraseKey s.historyValue key⟩)
      | none => (default, ⟨s.k, m.2, hist2, s.historyValue⟩)
    else (default, ⟨s.k, m.2, hist2, s.historyValue⟩)

/-- Embeds `void LruKCache::put(const Key&, const Value&)`: when the key is
already in the main cache, update it there; otherwise record the value in
the history maps, increment the history count, and admit the key to the main
cache exactly when the count reaches `k_`. -/
def LruKCache.put (s : LruKCache K V) (key : K) (v : V) : LruKCache K V :=
  let m := LruCache.get s.main key
  match m.1 with
  | some _ => ⟨s.k, LruCache.put m.2 key v, s.history, s.historyValue⟩
  | none =>
    let h := LruCache.getValue s.history key
    let historyCount := h.1 + 1
    let hist2 := LruCache.put h.2 key historyCount
    let hv := setAssoc s.historyValue key v
    if intToSizeT s.k ≤ historyCount then
      ⟨s.k, LruCache.put m.2 key v, LruCache.remove hist2 key, eraseKey hv key⟩
    else ⟨s.k, m.2, hist2, hv⟩

/-- The keys currently resident in the main cache of an `LruKCache`. -/
def mainKeys (s : LruKCache K V) : List K := s.main.order.map Prod.fst

/-- The history access count an operation on `key` records: the count
currently stored in `historyList_` (0 when absent) plus one. -/
def histCountOf (s : LruKCache K V) (key : K) : Nat :=
  (LruCache.getValue s.history key).1 + 1

end LruKDefs

section LfuDefs

variable {K V : Type} [DecidableEq K]

/-- Modelled from the spec: the LFU engine (`LfuCache.h`, included by
`src/tests/lfu.test.cpp`) is not under `src/`.  Spec sections 3 and 4.2
give its state: fixed `capacity` and aging threshold `maxAverageFreq`; the
key index, each node carrying its value and frequency; the frequency
buckets, each listing its member keys oldest first; the running minimum
frequency `minFreq`; and the running total-frequency counter `curTotal`. -/
structure LfuCache (K V : Type) where
  capacity : Nat
  maxAverageFreq : Nat
  index : List (K × V × Nat)
  buckets : List (Nat × List K)
  minFreq : Nat
  curTotal : Nat

/-- Modelled from the spec: construction `LfuCache(capacity,
maxAverageFrequency)`; a capacity `<= 0` degrades to the always-empty,
always-miss cache rather than failing. -/
def LfuCache.make (capacity maxAverage : Int) : LfuCache K V :=
  ⟨if 0 < capacity then capacity.toNat else 0,
    if 0 < maxAverage then maxAverage.toNat else 0, [], [], 0, 0⟩

/-- Modelled from the spec: the aging condition, "the running
total-frequency counter divided by the current index size exceeds
`maxAverageFrequency`". -/
def agingCond (s : LfuCache K V) : Bool :=
  decide (s.index.length ≠ 0) &&
    decide (s.maxAverageFreq < s.curTotal / s.index.length)

/-- Minimum of a list of naturals (0 on the empty list; used only on
non-empty frequency lists). -/
def listMin : List Nat → Nat
  | [] => 0
  | [a] => a
  | a :: b :: rest => min a (listMin (b :: rest))

/-- Modelled from the spec: the aging sweep.  Every live frequency is halved
with minimum 1, every node is relocated into the bucket of its new
frequency, `minFreq` is recomputed as the minimum live frequency, and
`curTotal` as the sum of the new frequencies. -/
def agingSweep (s : LfuCache K V) : LfuCache K V :=
  let index2 := s.index.map (fun e => (e.1, e.2.1, max 1 (e.2.2 / 2)))
  let buckets2 := index2.foldl
    (fun bs e => setAssoc bs e.2.2 ((lookupKey bs e.2.2).getD [] ++ [e.1])) []
  ⟨s.capacity, s.maxAverageFreq, index2, buckets2,
    listMin (index2.map (fun e => e.2.2)), (index2.map (fun e => e.2.2)).sum⟩

/-- Run the aging sweep when the aging condition holds (the condition is
checked after every mutation that changes the total frequency). -/
def agingCheck (s : LfuCache K V) : LfuCache K V :=
  if agingCond s then agingSweep s else s

/-- Modelled from the spec: the promote step shared by `get` and
`put`-on-existing-key, before the aging check.  Unlink the node from the
bucket of its old frequency `f`; when that bucket became empty at
`minFreq`, advance `minFreq` to `f + 1`; increment the frequency; append the
node to the bucket of `f + 1`; store the (possibly overwritten) value `v2`;
add 1 to the running counter. -/
def promoteCore (s : LfuCache K V) (key : K) (v2 : V) (f : Nat) :
    LfuCache K V :=
  let bucketOld := eraseElem ((lookupKey s.buckets f).getD []) key
  let buckets1 := setAssoc s.buckets f bucketOld
  let minFreq2 := if bucketOld = [] ∧ f = s.minFreq then f + 1 else s.minFreq
  let buckets2 := setAssoc buckets1 (f + 1)
    (((lookupKey buckets1 (f + 1)).getD []) ++ [key])
  ⟨s.capacity, s.maxAverageFreq, setAssoc s.index key (v2, f + 1), buckets2,
    minFreq2, s.curTotal + 1⟩

/-- Modelled from the spec: evict.  Take the first node of the bucket at
`minFreq` (the oldest entrant to that frequency; defensively a no-op when
that bucket is empty, which cannot occur in invariant-respecting states at
capacity), unlink it, erase it from the index, and subtract its frequency
from the running counter. -/
def evictCore (s : LfuCache K V) : LfuCache K V :=
  match (lookupKey s.buckets s.minFreq).getD [] with
  | [] => s
  | victim :: rest =>
    let vf := ((lookupKey s.index victim).map (fun p => p.2)).getD 0
    ⟨s.capacity, s.maxAverageFreq, eraseKey s.index victim,
      setAssoc s.buckets s.minFreq rest, s.minFreq, s.curTotal - vf⟩

/-- Modelled from the spec: the state `put` on an absent key builds before
its aging check: evict first when the index is at capacity, then insert a
new node at frequency 1, append it to bucket 1, set `minFreq = 1`, and add
the node weight 1 to the running counter. -/
def putInsertCore (s : LfuCache K V) (key : K) (v : V) : LfuCache K V :=
  let s1 := if s.capacity ≤ s.index.length then evictCore s else s
  ⟨s1.capacity, s1.maxAverageFreq, s1.index ++ [(key, v, 1)],
    setAssoc s1.buckets 1 (((lookupKey s1.buckets 1).getD []) ++ [key]),
    1, s1.curTotal + 1⟩

/-- Modelled from the spec: `put(key, value)`.  No-op at capacity 0; on an
existing key overwrite the value and promote; on an absent key evict when at
capacity and insert at frequency 1; finally check the aging condition. -/
def LfuCache.put (s : LfuCache K V) (key : K) (v : V) : LfuCache K V :=
  if s.capacity = 0 then s
  else
    match lookupKey s.index key with
    | some p => agingCheck (promoteCore s key v p.2)
    | none => agingCheck (putInsertCore s key v)

/-- Modelled from the spec: `get(key) -> (value, found)`.  A miss leaves all
state unchanged; a hit promotes and returns the current value, then checks
the aging condition. -/
def LfuCache.get (s : LfuCache K V) (key : K) : Option V × LfuCache K V :=
  match lookupKey s.index key with
  | none => (none, s)
  | some p => (some p.1, agingCheck (promoteCore s key p.1 p.2))

/-- A public operation on an `LfuCache`. -/
inductive LfuOp (K V : Type) where
  | put (key : K) (v : V)
  | get (key : K)

/-- Run one LFU operation, keeping the state. -/
def applyLfuOp (s : LfuCache K V) : LfuOp K V → LfuCache K V
  | LfuOp.put key v => LfuCache.put s key v
  | LfuOp.get key => (LfuCache.get s key).2

/-- Run a sequence of LFU operations left to right. -/
def runLfuOps (s : LfuCache K V) (ops : List (LfuOp K V)) : LfuCache K V :=
  ops.foldl applyLfuOp s

/-- Whether the given operation on the given state fires the aging sweep
(the check happens after the mutation; a get miss and a capacity-0 put
mutate nothing and check nothing). -/
def agingFiresAt (s : LfuCache K V) : LfuOp K V → Bool
  | LfuOp.put key v =>
    if s.capacity = 0 then false
    else match lookupKey s.index key with
      | some p => agingCond (promoteCore s key v p.2)
      | none => agingCond (putInsertCore s key v)
  | LfuOp.get key =>
    match lookupKey s.index key with
    | none => false
    | some p => agingCond (promoteCore s key p.1 p.2)

/-- No aging sweep fires anywhere during the run of `ops` from `s`. -/
def noAgingOps (s : LfuCache K V) : List (LfuOp K V) → Bool
  | [] => true
  | op :: rest => !agingFiresAt s op && noAgingOps (applyLfuOp s op) rest

/-- The frequency currently recorded for `key` in the index. -/
def freqOf (s : LfuCache K V) (key : K) : Option Nat :=
  (lookupKey s.index key).map (fun p => p.2)

/-- Whether an LFU operation addresses `key`. -/
def opOnKey (key : K) : LfuOp K V → Bool
  | LfuOp.put k2 _ => decide (k2 = key)
  | LfuOp.get k2 => decide (k2 = key)

end LfuDefs

section AssocLemmas

variable {A B : Type} [DecidableEq A]

theorem lookupKey_eq_none_iff (l : List (A × B)) (a : A) :
    lookupKey l a = none ↔ a ∉ l.map Prod.fst := by
  induction l with
  | nil => simp [lookupKey]
  | cons p rest ih =>
    obtain ⟨x, y⟩ := p
    by_cases hx : x = a
    · subst hx; simp [lookupKey]
    · rw [List.map_cons, List.mem_cons]
      simp only [lookupKey, if_neg hx]
      rw [ih]
      constructor
      · intro h hor
        rcases hor with h1 | h1
        · exact hx h1.symm
        · exact h h1
      · intro h hmem
        exact h (Or.inr hmem)

theorem mem_of_lookupKey_eq_some {l : List (A × B)} {a : A} {b : B}
    (h : lookupKey l a = some b) : a ∈ l.map Prod.fst := by
  induction l with
  | nil => simp [lookupKey] at h
  | cons p rest ih =>
    obtain ⟨x, y⟩ := p
    rw [List.map_cons, List.mem_cons]
    by_cases hx : x = a
    · exact Or.inl hx.symm
    · simp only [lookupKey, if_neg hx] at h
      exact Or.inr (ih h)

theorem length_eraseKey_of_lookup {l : List (A × B)} {a : A} {b : B}
    (h : lookupKey l a = some b) : l.length = (eraseKey l a).length + 1 := by
  induction l with
  | nil => simp [lookupKey] at h
  | cons p rest ih =>
    obtain ⟨x, y⟩ := p
    by_cases hx : x = a
    · simp [eraseKey, hx]
    · simp [lookupKey, hx] at h
      simp [eraseKey, hx, ih h]

theorem mem_keys_eraseKey {l : List (A × B)} {a j : A}
    (h : j ∈ (eraseKey l a).map Prod.fst) : j ∈ l.map Prod.fst := by
  induction l with
  | nil => simp [eraseKey] at h
  | cons p rest ih =>
    obtain ⟨x, y⟩ := p
    rw [List.map_cons, List.mem_cons]
    by_cases hx : x = a
    · simp only [eraseKey, if_pos hx] at h
      exact Or.inr h
    · simp only [eraseKey, if_neg hx, List.map_cons, List.mem_cons] at h
      rcases h with h | h
      · exact Or.inl h
      · exact Or.inr (ih h)

theorem lookupKey_append_of_none {l : List (A × B)} {a : A}
    (h : lookupKey l a = none) (b : B) :
    lookupKey (l ++ [(a, b)]) a = some b := by
  induction l with
  | nil => simp [lookupKey]
  | cons p rest ih =>
    obtain ⟨x, y⟩ := p
    by_cases hx : x = a
    · simp [lookupKey, hx] at h
    · simp [lookupKey, hx] at h ⊢
      exact ih h

theorem lookupKey_of_mem_nodup {l : List (A × B)} {a : A} {b : B}
    (hnd : (l.map Prod.fst).Nodup) (hmem : (a, b) ∈ l) :
    lookupKey l a = some b := by
  induction l with
  | nil => simp at hmem
  | cons p rest ih =>
    obtain ⟨x, y⟩ := p
    rw [List.map_cons] at hnd
    have hnd1 := List.nodup_cons.mp hnd
    rcases List.mem_cons.mp hmem with h1 | h1
    · have hx : a = x := congrArg Prod.fst h1
      have hy : b = y := congrArg Prod.snd h1
      subst hx; subst hy
      simp [lookupKey]
    · by_cases hx : x = a
      · subst hx
        exact absurd (List.mem_map.mpr ⟨(x, b), h1, rfl⟩) hnd1.1
      · simp only [lookupKey, if_neg hx]
        exact ih hnd1.2 h1

end AssocLemmas

section LruLemmas

variable {K V : Type} [DecidableEq K]

theorem LruCache.capacity_put (s : LruCache K V) (key : K) (v : V) :
    (LruCache.put s key v).capacity = s.capacity := by
  unfold LruCache.put
  by_cases h0 : s.capacity = 0
  · simp [h0]
  · cases h : lookupKey s.order key <;> simp [h0, h]

theorem LruCache.length_put_le (s : LruCache K V) (key : K) (v : V)
    (hle : s.order.length ≤ s.capacity) :
    (LruCache.put s key v).order.length ≤ s.capacity := by
  unfold LruCache.put
  by_cases h0 : s.capacity = 0
  · simpa [h0] using hle
  · cases h : lookupKey s.order key with
    | some v0 =>
      have hlen := length_eraseKey_of_lookup h
      simp [h0, h]
      omega
    | none =>
      by_cases hcap : s.capacity ≤ s.order.length
      · have hlen : s.order.length = s.capacity := le_antisymm hle hcap
        have htail : s.order.tail.length = s.order.length - 1 :=
          List.length_tail s.order
        simp [h0, h, hcap]
        omega
      · simp [h0, h, hcap]
        omega

theorem capacity_runPuts (s : LruCache K V) (ps : List (K × V)) :
    (runPuts s ps).capacity = s.capacity := by
  induction ps generalizing s with
  | nil => rfl
  | cons p rest ih =>
    have hstep : runPuts s (p :: rest) = runPuts (LruCache.put s p.1 p.2) rest := rfl
    rw [hstep, ih, LruCache.capacity_put]

theorem length_runPuts_le (ps : List (K × V)) (s : LruCache K V)
    (hle : s.order.length ≤ s.capacity) :
    (runPuts s ps).order.length ≤ s.capacity := by
  induction ps generalizing s with
  | nil => exact hle
  | cons p rest ih =>
    have hstep : runPuts s (p :: rest) = runPuts (LruCache.put s p.1 p.2) rest := rfl
    have h1 : (LruCache.put s p.1 p.2).order.length ≤ (LruCache.put s p.1 p.2).capacity := by
      rw [LruCache.capacity_put]
      exact LruCache.length_put_le s p.1 p.2 hle
    have h2 := ih (LruCache.put s p.1 p.2) h1
    rw [LruCache.capacity_put] at h2
    rw [hstep]
    exact h2

theorem runLruOps_make_zero (c : Int) (hc : c ≤ 0) (ops : List (LruOp K V)) :
    runLruOps (LruCache.make c) ops = LruCache.make c := by
  have hcap : (LruCache.make (K := K) (V := V) c).capacity = 0 := by
    unfold LruCache.make
    have : ¬ 0 < c := not_lt.mpr hc
    simp [this]
  induction ops with
  | nil => rfl
  | cons op rest ih =>
    have hfix : applyLruOp (LruCache.make (K := K) (V := V) c) op = LruCache.make c := by
      cases op with
      | put key v => simp [applyLruOp, LruCache.put, hcap]
      | get key => simp [applyLruOp, LruCache.get, LruCache.make, lookupKey]
    have hstep : runLruOps (LruCache.make (K := K) (V := V) c) (op :: rest) =
        runLruOps (applyLruOp (LruCache.make c) op) rest := rfl
    rw [hstep, hfix, ih]

end LruLemmas

/-- C1: for every capacity `c >= 0` and every sequence of `put` operations on
an `LruCache` constructed with capacity `c`, the number of keys resident in
the index never exceeds `c`: `put` on a new key when the index size is
already at capacity evicts an entry before inserting, so the index size
stays `<= c` after every operation (every prefix of the sequence is itself a
sequence, so the bound holds at every intermediate state). -/
theorem c1_capacity_bound {K V : Type} [DecidableEq K] (c : Int) (hc : 0 ≤ c)
    (ps : List (K × V)) :
    ((runPuts (LruCache.make c) ps).order.length : Int) ≤ c := by
  have h0 : (LruCache.make (K := K) (V := V) c).order.length ≤
      (LruCache.make (K := K) (V := V) c).capacity := by
    simp [LruCache.make]
  have h1 := length_runPuts_le ps (LruCache.make (K := K) (V := V) c) h0
  have h2 : ((LruCache.make (K := K) (V := V) c).capacity : Int) ≤ c := by
    unfold LruCache.make
    by_cases h : 0 < c
    · simp [h]
      omega
    · simp [h]
      omega
  have h3 : ((runPuts (LruCache.make (K := K) (V := V) c) ps).order.length : Int) ≤
      ((LruCache.make (K := K) (V := V) c).capacity : Int) := by
    exact_mod_cast h1
  exact le_trans h3 h2

/-- Witness for `c1_capacity_bound` at capacity 2 and three distinct puts. -/
theorem c1_capacity_bound_witness :
    (0 : Int) ≤ 2 ∧
      ((runPuts (LruCache.make (K := Nat) (V := Nat) 2)
        [(1, 10), (2, 20), (3, 30)]).order.length : Int) ≤ 2 :=
  ⟨by decide, c1_capacity_bound 2 (by decide) [(1, 10), (2, 20), (3, 30)]⟩

/-- C2: for every cache constructed with capacity `<= 0`, every `put` is a
silent no-op and every subsequent `get` reports not-found, for any number and
order of `put` and `get` calls; construction itself does not fail (the
constructor clamps the capacity to 0 and yields the empty cache, and every
operation maps that state to itself). -/
theorem c2_zero_capacity_noop {K V : Type} [DecidableEq K] (c : Int)
    (hc : c ≤ 0) (ops : List (LruOp K V)) :
    runLruOps (LruCache.make c) ops = LruCache.make c ∧
      ∀ key, (LruCache.get (runLruOps (LruCache.make (K := K) (V := V) c) ops) key).1 = none := by
  have hrun := runLruOps_make_zero c hc ops
  refine ⟨hrun, fun key => ?_⟩
  rw [hrun]
  simp [LruCache.get, LruCache.make, lookupKey]

/-- Witness for `c2_zero_capacity_noop` at capacity -3 with an interleaved
put, get, put sequence. -/
theorem c2_zero_capacity_noop_witness :
    ((-3 : Int) ≤ 0) ∧
      (runLruOps (LruCache.make (-3))
          [LruOp.put 1 5, LruOp.get 1, LruOp.put 2 7] = LruCache.make (-3) ∧
        ∀ key : Nat,
          (LruCache.get (runLruOps (LruCache.make (K := Nat) (V := Nat) (-3))
            [LruOp.put 1 5, LruOp.get 1, LruOp.put 2 7]) key).1 = none) :=
  ⟨by decide, c2_zero_capacity_noop (-3) (by decide)
    [LruOp.put 1 5, LruOp.get 1, LruOp.put 2 7]⟩

/-- C5: for every cache state in which key `k` is not resident, the
single-argument convenience `get(k)` returns the semantic zero value, the
value-initialized `Value` (embedded as `default`). -/
theorem c5_absent_get_default {K V : Type} [DecidableEq K] [Inhabited V]
    (s : LruCache K V) (key : K) (habs : lookupKey s.order key = none) :
    (LruCache.getValue s key).1 = default := by
  simp [LruCache.getValue, LruCache.get, habs]

/-- Witness for `c5_absent_get_default`: key 5 is absent from a two-entry
cache and the convenience get returns 0, the value-initialized `Nat`. -/
theorem c5_absent_get_default_witness :
    lookupKey (([(1, 10), (2, 20)] : List (Nat × Nat))) 5 = none ∧
      (LruCache.getValue (⟨2, [(1, 10), (2, 20)]⟩ : LruCache Nat Nat) 5).1 = default :=
  ⟨by decide, c5_absent_get_default ⟨2, [(1, 10), (2, 20)]⟩ 5 (by decide)⟩

/-- C6: for every key absent from the cache, the two-argument `get` reports
not-found and leaves the entire cache state (index contents, list order, all
other entries) unchanged: the result is exactly `(none, s)`. -/
theorem c6_absent_get_unchanged {K V : Type} [DecidableEq K]
    (s : LruCache K V) (key : K) (habs : lookupKey s.order key = none) :
    LruCache.get s key = (none, s) := by
  simp [LruCache.get, habs]

/-- Witness for `c6_absent_get_unchanged`: a miss on key 5 returns not-found
and the identical state. -/
theorem c6_absent_get_unchanged_witness :
    lookupKey (([(1, 10), (2, 20)] : List (Nat × Nat))) 5 = none ∧
      LruCache.get (⟨2, [(1, 10), (2, 20)]⟩ : LruCache Nat Nat) 5 =
        (none, ⟨2, [(1, 10), (2, 20)]⟩) :=
  ⟨by decide, c6_absent_get_unchanged ⟨2, [(1, 10), (2, 20)]⟩ 5 (by decide)⟩

/-- C9: when `put` inserts a new key while the index is at capacity
(capacity >= 1), the evicted key is exactly the least recently used one, the
node adjacent to the head sentinel (the head of `order`): the resulting
order is `order.tail ++ [(key, v)]`.  Moreover every `get` hit and every
`put` on an existing key relink that node immediately before the tail
sentinel (it becomes the last element of `order`), making it the last
candidate for eviction. -/
theorem c9_eviction_head_relink_tail {K V : Type} [DecidableEq K]
    (s : LruCache K V) (key : K) (v : V) :
    (lookupKey s.order key = none → s.order.length = s.capacity →
      1 ≤ s.capacity →
      (LruCache.put s key v).order = s.order.tail ++ [(key, v)]) ∧
    (∀ v0, lookupKey s.order key = some v0 →
      (LruCache.get s key).2.order = eraseKey s.order key ++ [(key, v0)] ∧
      (1 ≤ s.capacity →
        (LruCache.put s key v).order = eraseKey s.order key ++ [(key, v)])) := by
  refine ⟨?_, ?_⟩
  · intro habs hlen hcap
    have h0 : ¬ s.capacity = 0 := by omega
    have hge : s.capacity ≤ s.order.length := le_of_eq hlen.symm
    simp [LruCache.put, h0, habs, hge]
  · intro v0 hsome
    refine ⟨by simp [LruCache.get, hsome], fun hcap => ?_⟩
    have h0 : ¬ s.capacity = 0 := by omega
    simp [LruCache.put, h0, hsome]

/-- Witness for `c9_eviction_head_relink_tail`: in a full capacity-2 cache
with order `[(1,10),(2,20)]`, inserting key 3 evicts key 1 (the head), and a
get hit on key 1 moves it to the tail. -/
theorem c9_eviction_head_relink_tail_witness :
    (lookupKey (([(1, 10), (2, 20)] : List (Nat × Nat))) 3 = none ∧
      (LruCache.put (⟨2, [(1, 10), (2, 20)]⟩ : LruCache Nat Nat) 3 30).order =
        ([(1, 10), (2, 20)] : List (Nat × Nat)).tail ++ [(3, 30)]) ∧
    (lookupKey (([(1, 10), (2, 20)] : List (Nat × Nat))) 1 = some 10 ∧
      (LruCache.get (⟨2, [(1, 10), (2, 20)]⟩ : LruCache Nat Nat) 1).2.order =
        eraseKey ([(1, 10), (2, 20)] : List (Nat × Nat)) 1 ++ [(1, 10)]) :=
  ⟨⟨by decide,
      (c9_eviction_head_relink_tail ⟨2, [(1, 10), (2, 20)]⟩ 3 30).1
        (by decide) (by decide) (by decide)⟩,
    ⟨by decide,
      ((c9_eviction_head_relink_tail ⟨2, [(1, 10), (2, 20)]⟩ 1 99).2 10
        (by decide)).1⟩⟩

section ListIndexLemmas

variable {A : Type}

theorem getD_set_self (l : List A) (j : Nat) (x d : A) (h : j < l.length) :
    (l.set j x).getD j d = x := by
  induction l generalizing j with
  | nil => simp at h
  | cons a rest ih =>
    cases j with
    | zero => simp
    | succ j2 =>
      simp only [List.set, List.getD_cons_succ]
      exact ih j2 (by simpa using h)

theorem getD_set_ne (l : List A) (i j : Nat) (x d : A) (h : i ≠ j) :
    (l.set j x).getD i d = l.getD i d := by
  induction l generalizing i j with
  | nil => simp
  | cons a rest ih =>
    cases j with
    | zero =>
      cases i with
      | zero => exact absurd rfl h
      | succ i2 => simp
    | succ j2 =>
      cases i with
      | zero => simp
      | succ i2 =>
        simp only [List.set, List.getD_cons_succ]
        exact ih i2 j2 (fun he => h (congrArg Nat.succ he))

theorem getD_replicate (n i : Nat) (a d : A) (h : i < n) :
    (List.replicate n a).getD i d = a := by
  induction n generalizing i with
  | zero => simp at h
  | succ n2 ih =>
    cases i with
    | zero => simp [List.replicate]
    | succ i2 =>
      simp only [List.replicate, List.getD_cons_succ]
      exact ih i2 (by omega)

end ListIndexLemmas

theorem make_capacity_ofNat {K V : Type} (m : Nat) :
    (LruCache.make (K := K) (V := V) (m : Int)).capacity = m := by
  unfold LruCache.make
  by_cases h : 0 < (m : Int)
  · simp [h]
  · simp [h]
    omega

section KHashLemmas

variable {K V : Type} [DecidableEq K]

theorem sliceNum_runKPuts (ps : List (K × V)) (s : KHashLruCaches K V) :
    (runKPuts s ps).sliceNum = s.sliceNum := by
  induction ps generalizing s with
  | nil => rfl
  | cons p rest ih =>
    have hstep : runKPuts s (p :: rest) =
        runKPuts (KHashLruCaches.put s p.1 p.2) rest := rfl
    rw [hstep, ih]
    rfl

theorem hashFn_runKPuts (ps : List (K × V)) (s : KHashLruCaches K V) :
    (runKPuts s ps).hashFn = s.hashFn := by
  induction ps generalizing s with
  | nil => rfl
  | cons p rest ih =>
    have hstep : runKPuts s (p :: rest) =
        runKPuts (KHashLruCaches.put s p.1 p.2) rest := rfl
    rw [hstep, ih]
    rfl

theorem length_caches_KPut (s : KHashLruCaches K V) (key : K) (v : V) :
    (KHashLruCaches.put s key v).caches.length = s.caches.length := by
  simp [KHashLruCaches.put]

/-- Running sharded puts acts on each slice as running the puts that hash
to that slice, in order.  `hf` and `n` are the (invariant) hash function
and slice count of the cache. -/
theorem caches_runKPuts_getD (hf : K → Nat) (n : Nat) (ps : List (K × V))
    (s : KHashLruCaches K V) (i : Nat)
    (hh : s.hashFn = hf) (hn : s.sliceNum = n)
    (hlen : s.caches.length = n) (hi : i < n) :
    (runKPuts s ps).caches.getD i (LruCache.make 0) =
      runPuts (s.caches.getD i (LruCache.make 0))
        (ps.filter (fun p => decide (hf p.1 % n = i))) := by
  induction ps generalizing s with
  | nil => rfl
  | cons p rest ih =>
    have hpos : 0 < n := by omega
    have hstep : runKPuts s (p :: rest) =
        runKPuts (KHashLruCaches.put s p.1 p.2) rest := rfl
    have hput_h : (KHashLruCaches.put s p.1 p.2).hashFn = hf := hh
    have hput_n : (KHashLruCaches.put s p.1 p.2).sliceNum = n := hn
    have hput_len : (KHashLruCaches.put s p.1 p.2).caches.length = n := by
      rw [length_caches_KPut]
      exact hlen
    have hih := ih (KHashLruCaches.put s p.1 p.2) hput_h hput_n hput_len
    have hcase : (KHashLruCaches.put s p.1 p.2).caches =
        s.caches.set (hf p.1 % n)
          (LruCache.put (s.caches.getD (hf p.1 % n) (LruCache.make 0)) p.1 p.2) := by
      simp [KHashLruCaches.put, hh, hn]
    by_cases hij : hf p.1 % n = i
    · subst hij
      rw [hstep, hih, hcase]
      rw [getD_set_self _ _ _ _ (by rw [hlen]; exact Nat.mod_lt _ hpos)]
      rw [List.filter_cons]
      simp only [decide_eq_true_eq, if_pos rfl]
      rfl
    · rw [hstep, hih, hcase]
      rw [getD_set_ne _ _ _ _ _ (fun he => hij he.symm)]
      rw [List.filter_cons]
      have hfalse : (decide (hf p.1 % n = i)) = false := by
        simpa using hij
      rw [hfalse]
      simp

/-- Filling an LRU cache with distinct new keys within capacity appends them
in order, evicting nothing. -/
theorem runPuts_distinct_order (ps : List (K × V)) (s : LruCache K V)
    (hnd : ((s.order ++ ps).map Prod.fst).Nodup)
    (hlen : s.order.length + ps.length ≤ s.capacity) :
    (runPuts s ps).order = s.order ++ ps := by
  induction ps generalizing s with
  | nil => simp [runPuts]
  | cons p rest ih =>
    obtain ⟨k, v⟩ := p
    have hlen2 : s.order.length + (rest.length + 1) ≤ s.capacity := by
      simpa using hlen
    have hcap0 : ¬ s.capacity = 0 := by omega
    have hnd2 : ((s.order ++ [(k, v)] ++ rest).map Prod.fst).Nodup := by
      rw [List.append_assoc]
      simpa using hnd
    have habs : lookupKey s.order k = none := by
      rw [lookupKey_eq_none_iff]
      intro hmem
      rw [List.map_append, List.nodup_append] at hnd
      have hk2 : k ∈ (((k, v) :: rest).map Prod.fst) := by simp
      exact hnd.2.2 hmem hk2
    have hlt : ¬ s.capacity ≤ s.order.length := by omega
    have hput : LruCache.put s k v = ⟨s.capacity, s.order ++ [(k, v)]⟩ := by
      simp [LruCache.put, hcap0, habs, hlt]
    have hstep : runPuts s ((k, v) :: rest) = runPuts (LruCache.put s k v) rest := rfl
    rw [hstep, hput]
    have hres := ih ⟨s.capacity, s.order ++ [(k, v)]⟩ (by simpa using hnd2)
      (by simp; omega)
    rw [hres]
    simp

end KHashLemmas

/-- C7: for every total capacity `C` and explicitly configured shard count
`S > 0`, the sharded cache constructs exactly `S` sub-caches, each with
per-shard capacity equal to `ceil(C / S) = (C + S - 1) / S`. -/
theorem c7_shard_sizes {K V : Type} [DecidableEq K] (C : Nat) (S : Int)
    (hS : 0 < S) (hw : Nat) (hashFn : K → Nat) :
    (KHashLruCaches.create (K := K) (V := V) C S hw hashFn).caches.length = S.toNat ∧
      ∀ i < S.toNat,
        ((KHashLruCaches.create (K := K) (V := V) C S hw hashFn).caches.getD i
          (LruCache.make 0)).capacity = (C + S.toNat - 1) / S.toNat := by
  constructor
  · simp [KHashLruCaches.create, hS]
  · intro i hi
    have hrep : (KHashLruCaches.create (K := K) (V := V) C S hw hashFn).caches =
        List.replicate S.toNat
          (LruCache.make (((C + S.toNat - 1) / S.toNat : Nat) : Int)) := by
      simp [KHashLruCaches.create, hS]
    rw [hrep, getD_replicate _ i _ _ hi, make_capacity_ofNat]

/-- Witness for `c7_shard_sizes`: total capacity 10 over 3 shards gives 3
sub-caches of capacity `ceil(10/3) = 4`. -/
theorem c7_shard_sizes_witness :
    (0 : Int) < 3 ∧
      ((KHashLruCaches.create (K := Nat) (V := Nat) 10 3 8
          (fun k => k)).caches.length = (3 : Int).toNat ∧
        ∀ i < (3 : Int).toNat,
          ((KHashLruCaches.create (K := Nat) (V := Nat) 10 3 8
            (fun k => k)).caches.getD i (LruCache.make 0)).capacity =
              (10 + (3 : Int).toNat - 1) / (3 : Int).toNat) :=
  ⟨by decide, c7_shard_sizes 10 3 (by decide) 8 (fun k => k)⟩

/-- Counterexample to C3 as stated: total capacity `C = 2`, shard count
`S = 2` (per-shard capacity `ceil(2/2) = 1`); the two distinct keys 0 and 2
both hash to shard 0 under the integer hash (the identity), so the second
insertion evicts the first inside that shard, and the get of inserted key 0
reports not-found instead of returning its value 10. -/
theorem c3_counterexample :
    (KHashLruCaches.get (runKPuts
      (KHashLruCaches.create (K := Nat) (V := Nat) 2 2 4 (fun k => k))
      [(0, 10), (2, 20)]) 0).1 = none := by decide

/-- C3 amended: for every sharded cache with shard count `S > 0` and total
capacity `C`, after inserting `C` distinct keys (with no other operations),
a get of each of those keys succeeds and returns its value, provided no
shard is oversubscribed: for each shard index, at most `ceil(C / S)` of the
inserted keys hash to it.  (As stated the claim is false: per-shard capacity
is `ceil(C / S)`, so a shard to which more than that many of the keys hash
must evict, see `c3_counterexample`.) -/
theorem c3_amended_sharded_distribution {K V : Type} [DecidableEq K]
    (C : Nat) (S : Int) (hS : 0 < S) (hw : Nat) (hashFn : K → Nat)
    (ps : List (K × V)) (_hC : ps.length = C)
    (hnd : (ps.map Prod.fst).Nodup)
    (hshard : ∀ i < S.toNat,
      (ps.filter (fun p => decide (hashFn p.1 % S.toNat = i))).length ≤
        (C + S.toNat - 1) / S.toNat) :
    ∀ p ∈ ps,
      (KHashLruCaches.get (runKPuts
        (KHashLruCaches.create (K := K) (V := V) C S hw hashFn) ps) p.1).1 =
          some p.2 := by
  intro p hp
  have hSpos : 0 < S.toNat := by omega
  set kh := KHashLruCaches.create (K := K) (V := V) C S hw hashFn with hkh
  have hnum : kh.sliceNum = S.toNat := by simp [hkh, KHashLruCaches.create, hS]
  have hhash : kh.hashFn = hashFn := rfl
  have hcaches : kh.caches =
      List.replicate S.toNat
        (LruCache.make (((C + S.toNat - 1) / S.toNat : Nat) : Int)) := by
    simp [hkh, KHashLruCaches.create, hS]
  have hclen : kh.caches.length = S.toNat := by
    rw [hcaches, List.length_replicate]
  have hi : hashFn p.1 % S.toNat < S.toNat := Nat.mod_lt _ hSpos
  have hproj := caches_runKPuts_getD hashFn S.toNat ps kh (hashFn p.1 % S.toNat)
    hhash hnum hclen hi
  have hslice : kh.caches.getD (hashFn p.1 % S.toNat) (LruCache.make 0) =
      LruCache.make (((C + S.toNat - 1) / S.toNat : Nat) : Int) := by
    rw [hcaches]
    exact getD_replicate _ _ _ _ hi
  set flt := ps.filter
    (fun q => decide (hashFn q.1 % S.toNat = hashFn p.1 % S.toNat)) with hflt
  have hndflt : (flt.map Prod.fst).Nodup := by
    have hsub : List.Sublist (flt.map Prod.fst) (ps.map Prod.fst) :=
      (List.filter_sublist ps).map Prod.fst
    exact hnd.sublist hsub
  have hlenflt : flt.length ≤ (C + S.toNat - 1) / S.toNat :=
    hshard (hashFn p.1 % S.toNat) hi
  have hord0 : (LruCache.make (K := K) (V := V)
      (((C + S.toNat - 1) / S.toNat : Nat) : Int)).order = [] := rfl
  have horder : (runPuts (LruCache.make
      (((C + S.toNat - 1) / S.toNat : Nat) : Int)) flt).order = flt := by
    have h2 := runPuts_distinct_order flt
      (LruCache.make (((C + S.toNat - 1) / S.toNat : Nat) : Int))
      (by rw [hord0, List.nil_append]; exact hndflt)
      (by rw [hord0, make_capacity_ofNat]; simpa using hlenflt)
    rw [h2, hord0, List.nil_append]
  have hmemflt : p ∈ flt := by
    rw [hflt]
    exact List.mem_filter.mpr ⟨hp, by simp⟩
  have hlook : lookupKey flt p.1 = some p.2 := by
    exact lookupKey_of_mem_nodup hndflt hmemflt
  have hfh : (runKPuts kh ps).hashFn = hashFn := by
    rw [hashFn_runKPuts]
    exact hhash
  have hfn : (runKPuts kh ps).sliceNum = S.toNat := by
    rw [sliceNum_runKPuts]
    exact hnum
  show (KHashLruCaches.get (runKPuts kh ps) p.1).1 = some p.2
  simp only [KHashLruCaches.get]
  rw [hfh, hfn, hproj, hslice]
  unfold LruCache.get
  rw [horder, hlook]

/-- Witness for `c3_amended_sharded_distribution`: capacity 2, 2 shards,
identity hash, keys 0 and 1 landing on different shards. -/
theorem c3_amended_sharded_distribution_witness :
    ((0 : Int) < 2 ∧ ([(0, 10), (1, 20)] : List (Nat × Nat)).length = 2 ∧
      (([(0, 10), (1, 20)] : List (Nat × Nat)).map Prod.fst).Nodup ∧
      (∀ i < (2 : Int).toNat,
        (([(0, 10), (1, 20)] : List (Nat × Nat)).filter
          (fun p => decide (p.1 % (2 : Int).toNat = i))).length ≤
            (2 + (2 : Int).toNat - 1) / (2 : Int).toNat)) ∧
    ∀ p ∈ ([(0, 10), (1, 20)] : List (Nat × Nat)),
      (KHashLruCaches.get (runKPuts
        (KHashLruCaches.create (K := Nat) (V := Nat) 2 2 4 (fun k => k))
        [(0, 10), (1, 20)]) p.1).1 = some p.2 :=
  ⟨⟨by decide, by decide, by decide, by decide⟩,
    c3_amended_sharded_distribution 2 2 (by decide) 4 (fun k => k)
      [(0, 10), (1, 20)] (by decide) (by decide) (by decide)⟩

section LruKLemmas

variable {K V : Type} [DecidableEq K]

theorem get_fst_eq_lookup (s : LruCache K V) (key : K) :
    (LruCache.get s key).1 = lookupKey s.order key := by
  unfold LruCache.get
  cases lookupKey s.order key <;> rfl

/-- A `get` never adds a key to an LRU cache. -/
theorem mem_keys_get_lru (s : LruCache K V) (key j : K)
    (h : j ∈ (LruCache.get s key).2.order.map Prod.fst) :
    j ∈ s.order.map Prod.fst := by
  unfold LruCache.get at h
  cases hl : lookupKey s.order key with
  | none =>
    rw [hl] at h
    exact h
  | some v =>
    rw [hl] at h
    simp only [List.map_append, List.mem_append, List.map_cons, List.map_nil,
      List.mem_singleton, List.mem_cons, List.not_mem_nil, or_false] at h
    rcases h with h | h
    · exact mem_keys_eraseKey h
    · subst h
      exact mem_of_lookupKey_eq_some hl

/-- A `put` adds at most its own key to an LRU cache. -/
theorem mem_keys_put_lru (s : LruCache K V) (key j : K) (v : V)
    (h : j ∈ (LruCache.put s key v).order.map Prod.fst) :
    j = key ∨ j ∈ s.order.map Prod.fst := by
  unfold LruCache.put at h
  by_cases h0 : s.capacity = 0
  · rw [if_pos h0] at h
    exact Or.inr h
  · rw [if_neg h0] at h
    cases hl : lookupKey s.order key with
    | some v0 =>
      rw [hl] at h
      simp only [List.map_append, List.mem_append, List.map_cons, List.map_nil,
        List.mem_cons, List.not_mem_nil, or_false] at h
      rcases h with h | h
      · exact Or.inr (mem_keys_eraseKey h)
      · exact Or.inl h
    | none =>
      rw [hl] at h
      simp only [List.map_append, List.mem_append, List.map_cons, List.map_nil,
        List.mem_cons, List.not_mem_nil, or_false] at h
      rcases h with h | h
      · by_cases hcap : s.capacity ≤ s.order.length
        · rw [if_pos hcap] at h
          refine Or.inr ?_
          have hsub : List.Sublist (s.order.tail.map Prod.fst)
              (s.order.map Prod.fst) := (List.tail_sublist s.order).map Prod.fst
          exact hsub.mem h
        · rw [if_neg hcap] at h
          exact Or.inr h
      · exact Or.inl h

end LruKLemmas

/-- C10: in `LruKCache`, a key not already resident in the main cache is
inserted into the main cache by `put` or `get` only when its recorded
history access count (the stored count plus the current access) has reached
`k`; until then every operation keeps it out of the main cache, so any key
resident in the main cache after an operation was resident before it, or is
the operated-on key admitted with a history count of at least `k`. -/
theorem c10_lruk_admission {K V : Type} [DecidableEq K] [Inhabited V]
    (s : LruKCache K V) (key : K) (v : V) (j : K) :
    (j ∈ mainKeys (LruKCache.put s key v) →
      j ∈ mainKeys s ∨ (j = key ∧ intToSizeT s.k ≤ histCountOf s key)) ∧
    (j ∈ mainKeys (LruKCache.get s key).2 →
      j ∈ mainKeys s ∨ (j = key ∧ intToSizeT s.k ≤ histCountOf s key)) := by
  constructor
  · intro hj
    cases hm : (LruCache.get s.main key).1 with
    | some v0 =>
      simp only [LruKCache.put, hm, mainKeys] at hj
      have h2 := mem_keys_put_lru (LruCache.get s.main key).2 key j v hj
      rcases h2 with h2 | h2
      · subst h2
        refine Or.inl ?_
        rw [get_fst_eq_lookup] at hm
        exact mem_of_lookupKey_eq_some hm
      · exact Or.inl (mem_keys_get_lru s.main key j h2)
    | none =>
      simp only [LruKCache.put, hm, mainKeys] at hj
      by_cases hc : intToSizeT s.k ≤ (LruCache.getValue s.history key).1 + 1
      · rw [if_pos hc] at hj
        have h2 := mem_keys_put_lru (LruCache.get s.main key).2 key j v hj
        rcases h2 with h2 | h2
        · exact Or.inr ⟨h2, hc⟩
        · exact Or.inl (mem_keys_get_lru s.main key j h2)
      · rw [if_neg hc] at hj
        exact Or.inl (mem_keys_get_lru s.main key j hj)
  · intro hj
    cases hm : (LruCache.get s.main key).1 with
    | some v0 =>
      simp only [LruKCache.get, hm, mainKeys] at hj
      exact Or.inl (mem_keys_get_lru s.main key j hj)
    | none =>
      simp only [LruKCache.get, hm, mainKeys] at hj
      by_cases hc : intToSizeT s.k ≤ (LruCache.getValue s.history key).1 + 1
      · rw [if_pos hc] at hj
        cases hv : lookupKey s.historyValue key with
        | some stored =>
          rw [hv] at hj
          have h2 := mem_keys_put_lru (LruCache.get s.main key).2 key j stored hj
          rcases h2 with h2 | h2
          · exact Or.inr ⟨h2, hc⟩
          · exact Or.inl (mem_keys_get_lru s.main key j h2)
        | none =>
          rw [hv] at hj
          exact Or.inl (mem_keys_get_lru s.main key j hj)
      · rw [if_neg hc] at hj
        exact Or.inl (mem_keys_get_lru s.main key j hj)

/-- Witness for `c10_lruk_admission`: with threshold `k = 1`, the very first
put of key 1 reaches the history threshold and admits the key to the main
cache. -/
theorem c10_lruk_admission_witness :
    1 ∈ mainKeys (LruKCache.put (LruKCache.make (K := Nat) (V := Nat) 10 10 1) 1 5) ∧
      (1 ∈ mainKeys (LruKCache.make (K := Nat) (V := Nat) 10 10 1) ∨
        (1 = 1 ∧ intToSizeT (LruKCache.make (K := Nat) (V := Nat) 10 10 1).k ≤
          histCountOf (LruKCache.make (K := Nat) (V := Nat) 10 10 1) 1)) :=
  ⟨by decide,
    (c10_lruk_admission (LruKCache.make 10 10 1) 1 5 1).1 (by decide)⟩

section LfuLemmas

variable {K V : Type} [DecidableEq K]

theorem lookupKey_setAssoc {A B : Type} [DecidableEq A]
    (l : List (A × B)) (a : A) (b : B) :
    lookupKey (setAssoc l a b) a = some b := by
  induction l with
  | nil => simp [setAssoc, lookupKey]
  | cons p rest ih =>
    obtain ⟨x, y⟩ := p
    by_cases hx : x = a
    · simp [setAssoc, hx, lookupKey]
    · simp [setAssoc, hx, lookupKey, ih]

theorem lookupKey_eraseKey_none {A B : Type} [DecidableEq A]
    {l : List (A × B)} {a x : A} (h : lookupKey l a = none) :
    lookupKey (eraseKey l x) a = none := by
  rw [lookupKey_eq_none_iff] at h ⊢
  exact fun hmem => h (mem_keys_eraseKey hmem)

omit [DecidableEq K] in
theorem agingCheck_of_not_cond {s : LfuCache K V} (h : agingCond s = false) :
    agingCheck s = s := by
  simp [agingCheck, h]

theorem capacity_evictCore (s : LfuCache K V) :
    (evictCore s).capacity = s.capacity := by
  unfold evictCore
  cases (lookupKey s.buckets s.minFreq).getD [] <;> rfl

theorem capacity_promoteCore (s : LfuCache K V) (key : K) (v2 : V) (f : Nat) :
    (promoteCore s key v2 f).capacity = s.capacity := rfl

theorem capacity_putInsertCore (s : LfuCache K V) (key : K) (v : V) :
    (putInsertCore s key v).capacity = s.capacity := by
  unfold putInsertCore
  by_cases h : s.capacity ≤ s.index.length
  · simp only [if_pos h]
    exact capacity_evictCore s
  · simp only [if_neg h]

theorem lookup_index_promoteCore (s : LfuCache K V) (key : K) (v2 : V) (f : Nat) :
    lookupKey (promoteCore s key v2 f).index key = some (v2, f + 1) := by
  unfold promoteCore
  exact lookupKey_setAssoc s.index key (v2, f + 1)

theorem index_evictCore_none {s : LfuCache K V} {key : K}
    (habs : lookupKey s.index key = none) :
    lookupKey (evictCore s).index key = none := by
  unfold evictCore
  cases (lookupKey s.buckets s.minFreq).getD [] with
  | nil => exact habs
  | cons victim rest => exact lookupKey_eraseKey_none habs

theorem lookup_index_putInsertCore (s : LfuCache K V) (key : K) (v : V)
    (habs : lookupKey s.index key = none) :
    lookupKey (putInsertCore s key v).index key = some (v, 1) := by
  unfold putInsertCore
  by_cases h : s.capacity ≤ s.index.length
  · simp only [if_pos h]
    exact lookupKey_append_of_none (index_evictCore_none habs) (v, 1)
  · simp only [if_neg h]
    exact lookupKey_append_of_none habs (v, 1)

theorem agingFiresAt_put_existing (s : LfuCache K V) (key : K) (v2 v : V)
    (f : Nat) (hcap : ¬ s.capacity = 0)
    (hres : lookupKey s.index key = some (v, f)) :
    agingFiresAt s (LfuOp.put key v2) = agingCond (promoteCore s key v2 f) := by
  simp only [agingFiresAt]
  rw [if_neg hcap, hres]

theorem agingFiresAt_put_insert (s : LfuCache K V) (key : K) (v : V)
    (hcap : ¬ s.capacity = 0) (habs : lookupKey s.index key = none) :
    agingFiresAt s (LfuOp.put key v) = agingCond (putInsertCore s key v) := by
  simp only [agingFiresAt]
  rw [if_neg hcap, habs]

theorem agingFiresAt_get_hit (s : LfuCache K V) (key : K) (v : V) (f : Nat)
    (hres : lookupKey s.index key = some (v, f)) :
    agingFiresAt s (LfuOp.get key) = agingCond (promoteCore s key v f) := by
  simp only [agingFiresAt]
  rw [hres]

theorem put_existing_no_aging (s : LfuCache K V) (key : K) (v2 v : V) (f : Nat)
    (hcap : ¬ s.capacity = 0) (hres : lookupKey s.index key = some (v, f))
    (ha : agingCond (promoteCore s key v2 f) = false) :
    LfuCache.put s key v2 = promoteCore s key v2 f := by
  unfold LfuCache.put
  rw [if_neg hcap, hres]
  change agingCheck (promoteCore s key v2 f) = promoteCore s key v2 f
  exact agingCheck_of_not_cond ha

theorem put_insert_no_aging (s : LfuCache K V) (key : K) (v : V)
    (hcap : ¬ s.capacity = 0) (habs : lookupKey s.index key = none)
    (ha : agingCond (putInsertCore s key v) = false) :
    LfuCache.put s key v = putInsertCore s key v := by
  unfold LfuCache.put
  rw [if_neg hcap, habs]
  change agingCheck (putInsertCore s key v) = putInsertCore s key v
  exact agingCheck_of_not_cond ha

theorem get_hit_snd_no_aging (s : LfuCache K V) (key : K) (v : V) (f : Nat)
    (hres : lookupKey s.index key = some (v, f))
    (ha : agingCond (promoteCore s key v f) = false) :
    (LfuCache.get s key).2 = promoteCore s key v f := by
  unfold LfuCache.get
  rw [hres]
  change agingCheck (promoteCore s key v f) = promoteCore s key v f
  exact agingCheck_of_not_cond ha

theorem lfu_get_fst (s : LfuCache K V) (key : K) (v : V) (f : Nat)
    (h : lookupKey s.index key = some (v, f)) :
    (LfuCache.get s key).1 = some v := by
  unfold LfuCache.get
  rw [h]

/-- Running operations all addressing a resident key, with no aging sweep
firing, raises the recorded frequency by exactly the number of operations. -/
theorem lookup_runLfuOps_onKey (ops : List (LfuOp K V)) (s : LfuCache K V)
    (key : K) (f : Nat) (v : V) (hcap : ¬ s.capacity = 0)
    (hres : lookupKey s.index key = some (v, f))
    (hall : ops.all (opOnKey key) = true)
    (hna : noAgingOps s ops = true) :
    ∃ w, lookupKey (runLfuOps s ops).index key = some (w, f + ops.length) := by
  induction ops generalizing s f v with
  | nil => exact ⟨v, by simpa using hres⟩
  | cons op rest ih =>
    simp only [List.all_cons, Bool.and_eq_true] at hall
    simp only [noAgingOps, Bool.and_eq_true, Bool.not_eq_true'] at hna
    have hstep : runLfuOps s (op :: rest) = runLfuOps (applyLfuOp s op) rest := rfl
    cases op with
    | put k2 v2 =>
      have hk2 : k2 = key := by simpa [opOnKey] using hall.1
      subst hk2
      have hfire := hna.1
      rw [agingFiresAt_put_existing s k2 v2 v f hcap hres] at hfire
      have hput := put_existing_no_aging s k2 v2 v f hcap hres hfire
      have happly : applyLfuOp s (LfuOp.put k2 v2) = promoteCore s k2 v2 f := by
        simpa [applyLfuOp] using hput
      have hres2 := lookup_index_promoteCore s k2 v2 f
      have hcap2 : ¬ (promoteCore s k2 v2 f).capacity = 0 := by
        rw [capacity_promoteCore]
        exact hcap
      have hna2 : noAgingOps (promoteCore s k2 v2 f) rest = true := by
        rw [← happly]
        exact hna.2
      obtain ⟨w, hw⟩ := ih (promoteCore s k2 v2 f) (f + 1) v2 hcap2 hres2 hall.2 hna2
      refine ⟨w, ?_⟩
      rw [hstep, happly, hw]
      simp only [List.length_cons, Option.some.injEq, Prod.mk.injEq, true_and]
      omega
    | get k2 =>
      have hk2 : k2 = key := by simpa [opOnKey] using hall.1
      subst hk2
      have hfire := hna.1
      rw [agingFiresAt_get_hit s k2 v f hres] at hfire
      have hget := get_hit_snd_no_aging s k2 v f hres hfire
      have happly : applyLfuOp s (LfuOp.get k2) = promoteCore s k2 v f := by
        simpa [applyLfuOp] using hget
      have hres2 := lookup_index_promoteCore s k2 v f
      have hcap2 : ¬ (promoteCore s k2 v f).capacity = 0 := by
        rw [capacity_promoteCore]
        exact hcap
      have hna2 : noAgingOps (promoteCore s k2 v f) rest = true := by
        rw [← happly]
        exact hna.2
      obtain ⟨w, hw⟩ := ih (promoteCore s k2 v f) (f + 1) v hcap2 hres2 hall.2 hna2
      refine ⟨w, ?_⟩
      rw [hstep, happly, hw]
      simp only [List.length_cons, Option.some.injEq, Prod.mk.injEq, true_and]
      omega

end LfuLemmas

/-- C4 (LFU engine, modelled from the spec; `LfuCache.h` is not under
`src/`): on a cache with capacity >= 1 where key `k` is not yet resident and
no aging sweep fires during the two puts, `put(k, v1); put(k, v2); get(k)`
returns `v2` (not `v1`), the key remains resident, and after the two puts
the key frequency is 2, not 1. -/
theorem c4_overwrite_advances_freq {K V : Type} [DecidableEq K]
    (s : LfuCache K V) (key : K) (v1 v2 : V)
    (hcap : 1 ≤ s.capacity) (habs : lookupKey s.index key = none)
    (hna : noAgingOps s [LfuOp.put key v1, LfuOp.put key v2] = true) :
    (LfuCache.get (LfuCache.put (LfuCache.put s key v1) key v2) key).1 = some v2 ∧
      lookupKey (LfuCache.put (LfuCache.put s key v1) key v2).index key = some (v2, 2) ∧
      freqOf (LfuCache.put (LfuCache.put s key v1) key v2) key = some 2 := by
  have hcap0 : ¬ s.capacity = 0 := by omega
  simp only [noAgingOps, Bool.and_eq_true, Bool.not_eq_true'] at hna
  have hfire1 := hna.1
  rw [agingFiresAt_put_insert s key v1 hcap0 habs] at hfire1
  have hput1 : LfuCache.put s key v1 = putInsertCore s key v1 :=
    put_insert_no_aging s key v1 hcap0 habs hfire1
  have hres1 : lookupKey (putInsertCore s key v1).index key = some (v1, 1) :=
    lookup_index_putInsertCore s key v1 habs
  have hcap1 : ¬ (putInsertCore s key v1).capacity = 0 := by
    rw [capacity_putInsertCore]
    exact hcap0
  have hfire2 := hna.2.1
  have happly1 : applyLfuOp s (LfuOp.put key v1) = putInsertCore s key v1 := by
    simpa [applyLfuOp] using hput1
  rw [happly1] at hfire2
  rw [agingFiresAt_put_existing (putInsertCore s key v1) key v2 v1 1 hcap1 hres1] at hfire2
  have hput2 : LfuCache.put (putInsertCore s key v1) key v2 =
      promoteCore (putInsertCore s key v1) key v2 1 :=
    put_existing_no_aging (putInsertCore s key v1) key v2 v1 1 hcap1 hres1 hfire2
  have hres2 : lookupKey (promoteCore (putInsertCore s key v1) key v2 1).index key =
      some (v2, 2) := lookup_index_promoteCore (putInsertCore s key v1) key v2 1
  rw [hput1, hput2]
  refine ⟨lfu_get_fst _ key v2 2 hres2, hres2, ?_⟩
  simp [freqOf, hres2]

/-- Witness for `c4_overwrite_advances_freq`: two puts of key 1 on a fresh
capacity-2 LFU cache with aging threshold 10, then a get. -/
theorem c4_overwrite_advances_freq_witness :
    (1 ≤ (LfuCache.make (K := Nat) (V := Nat) 2 10).capacity ∧
      lookupKey (LfuCache.make (K := Nat) (V := Nat) 2 10).index 1 = none ∧
      noAgingOps (LfuCache.make (K := Nat) (V := Nat) 2 10)
        [LfuOp.put 1 5, LfuOp.put 1 7] = true) ∧
    ((LfuCache.get (LfuCache.put (LfuCache.put
        (LfuCache.make (K := Nat) (V := Nat) 2 10) 1 5) 1 7) 1).1 = some 7 ∧
      lookupKey (LfuCache.put (LfuCache.put
        (LfuCache.make (K := Nat) (V := Nat) 2 10) 1 5) 1 7).index 1 = some (7, 2) ∧
      freqOf (LfuCache.put (LfuCache.put
        (LfuCache.make (K := Nat) (V := Nat) 2 10) 1 5) 1 7) 1 = some 2) :=
  ⟨⟨by decide, by decide, by decide⟩,
    c4_overwrite_advances_freq (LfuCache.make 2 10) 1 5 7
      (by decide) (by decide) (by decide)⟩

/-- C8 (LFU engine, modelled from the spec; `LfuCache.h` is not under
`src/`): for every key and every n >= 0, after n successful get or
put-on-existing-key operations on that key since its creation (recorded
frequency 1), and before any aging sweep fires, the key frequency equals
1 + n: a new node starts at frequency 1 and each promotion increments the
frequency by exactly 1. -/
theorem c8_promotion_count {K V : Type} [DecidableEq K]
    (s : LfuCache K V) (key : K) (v : V) (ops : List (LfuOp K V))
    (hcap : ¬ s.capacity = 0)
    (hres : lookupKey s.index key = some (v, 1))
    (hall : ops.all (opOnKey key) = true)
    (hna : noAgingOps s ops = true) :
    freqOf (runLfuOps s ops) key = some (1 + ops.length) := by
  obtain ⟨w, hw⟩ := lookup_runLfuOps_onKey ops s key 1 v hcap hres hall hna
  simp [freqOf, hw]

/-- Witness for `c8_promotion_count`: key 1 created at frequency 1, then one
get and one overwriting put, ending at frequency 3 = 1 + 2. -/
theorem c8_promotion_count_witness :
    (¬ (LfuCache.put (LfuCache.make (K := Nat) (V := Nat) 2 10) 1 5).capacity = 0 ∧
      lookupKey (LfuCache.put (LfuCache.make (K := Nat) (V := Nat) 2 10) 1 5).index 1 =
        some (5, 1) ∧
      ([LfuOp.get 1, LfuOp.put 1 7] : List (LfuOp Nat Nat)).all (opOnKey 1) = true ∧
      noAgingOps (LfuCache.put (LfuCache.make (K := Nat) (V := Nat) 2 10) 1 5)
        [LfuOp.get 1, LfuOp.put 1 7] = true) ∧
    freqOf (runLfuOps (LfuCache.put (LfuCache.make (K := Nat) (V := Nat) 2 10) 1 5)
      [LfuOp.get 1, LfuOp.put 1 7]) 1 = some 3 :=
  ⟨⟨by decide, by decide, by decide, by decide⟩,
    c8_promotion_count (LfuCache.put (LfuCache.make 2 10) 1 5) 1 5
      [LfuOp.get 1, LfuOp.put 1 7] (by decide) (by decide) (by decide) (by decide)⟩
